import Mathlib

/-!
Formal model of the summarize-bot incremental summarization engine
(`src/main.py`), together with theorems about its highlight selection,
keyword extraction, truncation, and watermark handling.

Modelling conventions:
* Instants (`datetime`) are integers counting seconds; `timedelta(hours=24)`
  is the constant `86400`.
* Python's stable `sorted(xs, key=..., reverse=True)` is modelled by the
  stable descending insertion sort `sortDesc` below (stable sorts under a
  total preorder have a unique result, so any stable model is faithful).
* Python's insertion-ordered `dict` used as a frequency counter is modelled
  by an association list updated by `bump` (increment in place, append new
  keys at the end).
* The fallible external collaborators (Firestore reads/writes, the Discord
  channel fetches) are modelled by explicit outcome parameters: a `readOk`
  / `writeOk` flag for the document store and a `FetchResult` per channel.
-/

/-- Stable descending insertion: `x` is placed before the first element whose
score is not greater than `score x`, so an element inserted later (i.e. one
that occurred later in the input) never jumps ahead of an equal-scored
earlier element.  Models one step of Python's stable descending sort. -/
def insertDesc {α : Type} (score : α → Nat) (x : α) : List α → List α
  | [] => [x]
  | y :: ys => if score x < score y then y :: insertDesc score x ys else x :: y :: ys

/-- Stable descending sort by a `Nat` score; models
`sorted(xs, key=score, reverse=True)` from `src/main.py`. -/
def sortDesc {α : Type} (score : α → Nat) : List α → List α
  | [] => []
  | x :: xs => insertDesc score x (sortDesc score xs)

/-- Python's `str.isspace` characters relevant to `str.split()`:
Lean's ASCII whitespace plus vertical tab and form feed. -/
def pyIsSpace (c : Char) : Bool := c.isWhitespace || c == '\x0b' || c == '\x0c'

/-- Accumulating worker for `pySplit`; `cur` holds the current word reversed. -/
def splitWsAux (cur : List Char) : List Char → List (List Char)
  | [] => if cur.isEmpty then [] else [cur.reverse]
  | c :: cs =>
    if pyIsSpace c then
      if cur.isEmpty then splitWsAux [] cs else cur.reverse :: splitWsAux [] cs
    else splitWsAux (c :: cur) cs

/-- Python `text.split()` (no separator argument): split on runs of
whitespace, producing no empty words. -/
def pySplit (s : String) : List String := (splitWsAux [] s.data).map String.mk

/-- Python `text.lower()` (modelled on ASCII letters). -/
def pyLower (s : String) : String := String.mk (s.data.map Char.toLower)

/-- `''.join(c for c in word if c.isalnum())` from `extract_keywords`. -/
def stripWord (w : String) : String := String.mk (w.data.filter Char.isAlphanum)

/-- The fixed stop-word set of `extract_keywords` in `src/main.py`, verbatim. -/
def stopWords : List String :=
  ["the", "a", "an", "and", "or", "but", "in", "on", "at", "to", "for", "of",
   "with", "by", "is", "are", "was", "were", "be", "been", "have", "has",
   "had", "do", "does", "did", "will", "would", "could", "should", "may",
   "might", "can", "this", "that", "these", "those", "i", "you", "he", "she",
   "it", "we", "they", "me", "him", "her", "us", "them"]

/-- The qualification test `len(word) > 2 and word not in stop_words`. -/
def isKeywordTok (w : String) : Bool := decide (2 < w.length) && !(stopWords.contains w)

/-- `word_freq[word] = word_freq.get(word, 0) + 1` on an insertion-ordered
dict modelled as an association list: increment in place if present,
append `(w, 1)` at the end otherwise. -/
def bump : List (String × Nat) → String → List (String × Nat)
  | [], w => [(w, 1)]
  | (k, n) :: rest, w => if k = w then (k, n + 1) :: rest else (k, n) :: bump rest w

/-- `extract_keywords` from `src/main.py`: lowercase, whitespace-tokenize,
strip non-alphanumerics, drop short words and stop words, count
frequencies in an insertion-ordered dict, stable-sort descending by count,
return the first `max_keywords` words. -/
def extract_keywords (text : String) (max_keywords : Nat) : List String :=
  let words := pySplit (pyLower text)
  let word_freq := words.foldl (fun acc w =>
    let w := stripWord w
    if isKeywordTok w then bump acc w else acc) []
  ((sortDesc (fun p => p.2) word_freq).take max_keywords).map (fun p => p.1)

/-- The sequence of qualifying (stripped, length-&gt;2, non-stop-word) tokens of
the input, in input order; the frequency dict counts exactly these. -/
def qualTokens (text : String) : List String :=
  ((pySplit (pyLower text)).map stripWord).filter isKeywordTok

/-- First-occurrence deduplication: keeps the first occurrence of each
element, in order of first occurrence.  The key order of the insertion-ordered
frequency dict is exactly `dedupF` of the qualifying-token sequence. -/
def dedupF : List String → List String
  | [] => []
  | w :: ws => w :: (dedupF ws).filter (fun x => decide (x ≠ w))

/-- A message as the engine reads it: display name, body text, reaction
count (`len(msg.reactions)`), creation instant. -/
structure Message where
  author : String
  content : String
  reactions : Nat
  created_at : Int
deriving DecidableEq

/-- `score = len(msg.content) + (len(msg.reactions) * 10)` from
`summarize_messages`. -/
def msgScore (m : Message) : Nat := m.content.length + m.reactions * 10

/-- One highlight entry of a channel summary. -/
structure Highlight where
  author : String
  content : String
  reactions : Nat
  timestamp : Int
deriving DecidableEq

/-- `msg.content[:200] + "..." if len(msg.content) > 200 else msg.content`. -/
def truncContent (s : String) : String :=
  if 200 < s.length then String.mk (s.data.take 200) ++ "..." else s

/-- The highlight dict built for one selected message. -/
def mkHighlight (m : Message) : Highlight :=
  ⟨m.author, truncContent m.content, m.reactions, m.created_at⟩

/-- The per-channel summary dict returned by `summarize_messages`. -/
structure ChannelSummary where
  total_messages : Nat
  highlights : List Highlight
  keywords : List String
deriving DecidableEq

/-- `sorted(messages_with_score, key=lambda x: x[1], reverse=True)[:5]`:
the messages selected as highlights, in rank order. -/
def topMessages (messages : List Message) : List Message :=
  (sortDesc msgScore messages).take 5

/-- `summarize_messages` from `src/main.py`. -/
def summarize_messages (messages : List Message) : ChannelSummary :=
  if messages.isEmpty then ⟨0, [], []⟩
  else
    ⟨messages.length,
     (topMessages messages).map mkHighlight,
     extract_keywords (String.intercalate " " (messages.map (fun m => m.content))) 5⟩

/-- The watermark document store: community id to stored instant. -/
abbrev Store := String → Option Int

/-- `get_last_summary_timestamp` from `src/main.py`: the stored instant when
one exists and the read succeeds; `utcnow() - timedelta(hours=24)` when the
document is absent or the storage read raises. -/
def get_last_summary_timestamp (store : Store) (readOk : Bool) (now : Int)
    (guild_id : String) : Int :=
  if readOk then
    match store guild_id with
    | some t => t
    | none => now - 86400
  else now - 86400

/-- `update_last_summary_timestamp` from `src/main.py`: overwrite the stored
instant; a storage error is swallowed (logged) and leaves the store as it was. -/
def update_last_summary_timestamp (store : Store) (writeOk : Bool)
    (guild_id : String) (timestamp : Int) : Store :=
  if writeOk then fun k => if k = guild_id then some timestamp else store k
  else store

/-- Outcome of `channel.history(limit=500, after=last_timestamp)` for one
channel: the qualifying messages, a permission failure (`discord.Forbidden`),
or any other fetch error. -/
inductive FetchResult where
  | ok (messages : List Message)
  | forbidden
  | fetchError (e : String)
deriving DecidableEq

/-- A text channel together with the outcome its fetch has during this run. -/
structure Channel where
  name : String
  id : String
  fetch : FetchResult
deriving DecidableEq

/-- A resolved guild: its name and its text channels. -/
structure Guild where
  name : String
  channels : List Channel
deriving DecidableEq

/-- One entry of `channel_summaries`. -/
structure ChannelEntry where
  channel_name : String
  channel_id : String
  summary : ChannelSummary
deriving DecidableEq

/-- The success payload of `get_guild_summary`. -/
structure GuildSummary where
  guild_name : String
  guild_id : String
  period_from : Int
  period_to : Int
  total_channels_with_activity : Nat
  total_messages : Nat
  channel_summaries : List ChannelEntry
deriving DecidableEq

/-- `get_guild_summary` returns either an error dict or a summary dict. -/
inductive SummaryResult where
  | error (msg : String)
  | ok (summary : GuildSummary)
deriving DecidableEq

/-- Result of one engine run: the returned value, the resulting watermark
store, and the log of `update_last_summary_timestamp` calls made. -/
structure EngineOutcome where
  result : SummaryResult
  store : Store
  writes : List (String × Int)

/-- The body of the per-channel loop of `get_guild_summary`: a successful
fetch with a nonempty message list appends a channel summary and bumps both
counters; an empty fetch, a permission failure, and any other fetch error
leave the accumulator unchanged. -/
def stepChannel (acc : List ChannelEntry × Nat × Nat) (ch : Channel) :
    List ChannelEntry × Nat × Nat :=
  match ch.fetch with
  | .ok messages =>
    if messages.isEmpty then acc
    else
      let summary := summarize_messages messages
      (acc.1 ++ [⟨ch.name, ch.id, summary⟩], acc.2.1 + summary.total_messages, acc.2.2 + 1)
  | .forbidden => acc
  | .fetchError _ => acc

/-- The qualifying messages a channel's fetch yielded (empty on failure). -/
def chMessages (ch : Channel) : List Message :=
  match ch.fetch with
  | .ok ms => ms
  | .forbidden => []
  | .fetchError _ => []

/-- Whether a channel contributes a `channel_summaries` entry: its fetch
succeeded and yielded at least one qualifying message. -/
def contributes (ch : Channel) : Bool :=
  match ch.fetch with
  | .ok messages => !messages.isEmpty
  | .forbidden => false
  | .fetchError _ => false

/-- The `channel_summaries` entry built for a contributing channel. -/
def mkChannelEntry (ch : Channel) : ChannelEntry :=
  ⟨ch.name, ch.id, summarize_messages (chMessages ch)⟩

/-- `get_guild_summary` from `src/main.py`.  `guild?` is the result of
`bot.get_guild`; `now0` is the instant `utcnow()` returns inside the
watermark read, and `run_start` is the instant `utcnow()` returns at
`current_time = datetime.utcnow()`, captured before the channel loop.  When
the guild does not resolve the function returns the error dict and touches
nothing; otherwise it folds the per-channel loop over the text channels and
unconditionally commits `run_start` as the new watermark. -/
def get_guild_summary (guild? : Option Guild) (store : Store)
    (readOk writeOk : Bool) (now0 run_start : Int) (guild_id : String) :
    EngineOutcome :=
  match guild? with
  | none => ⟨.error "Guild not found", store, []⟩
  | some guild =>
    let last_timestamp := get_last_summary_timestamp store readOk now0 guild_id
    let acc := guild.channels.foldl stepChannel ([], 0, 0)
    ⟨.ok ⟨guild.name, guild_id, last_timestamp, run_start, acc.2.2, acc.2.1, acc.1⟩,
     update_last_summary_timestamp store writeOk guild_id run_start,
     [(guild_id, run_start)]⟩

/-! Generic facts about the stable descending sort. -/

/-- Order a stable descending sort establishes between an earlier and a later
output element: strictly greater score, or equal score together with the
input-order relation `R`. -/
def descTieRel {α : Type} (score : α → Nat) (R : α → α → Prop) (a b : α) : Prop :=
  score b < score a ∨ (score a = score b ∧ R a b)

theorem descTieRel_le {α : Type} (score : α → Nat) (R : α → α → Prop) {a b : α}
    (h : descTieRel score R a b) : score b ≤ score a := by
  rcases h with h | ⟨h, _⟩ <;> omega

theorem insertDesc_perm {α : Type} (score : α → Nat) (x : α) (l : List α) :
    List.Perm (insertDesc score x l) (x :: l) := by
  induction l with
  | nil => simp [insertDesc]
  | cons y ys ih =>
    by_cases h : score x < score y
    · simp only [insertDesc, if_pos h]
      exact List.Perm.trans (List.Perm.cons y ih) (List.Perm.swap x y ys)
    · simp [insertDesc, if_neg h]

theorem sortDesc_perm {α : Type} (score : α → Nat) (l : List α) :
    List.Perm (sortDesc score l) l := by
  induction l with
  | nil => simp [sortDesc]
  | cons x xs ih =>
    exact List.Perm.trans (insertDesc_perm score x (sortDesc score xs))
      (List.Perm.cons x ih)

theorem insertDesc_pairwise {α : Type} (score : α → Nat) (R : α → α → Prop)
    (x : α) (l : List α) (hS : l.Pairwise (descTieRel score R))
    (hR : ∀ y ∈ l, R x y) :
    (insertDesc score x l).Pairwise (descTieRel score R) := by
  induction l with
  | nil => simp [insertDesc, List.Pairwise.nil]
  | cons y ys ih =>
    rcases List.pairwise_cons.mp hS with ⟨hy, hys⟩
    by_cases h : score x < score y
    · simp only [insertDesc, if_pos h]
      refine List.pairwise_cons.mpr ⟨?_, ih hys (fun z hz => hR z (List.mem_cons_of_mem y hz))⟩
      intro z hz
      rcases List.mem_cons.mp ((insertDesc_perm score x ys).mem_iff.mp hz) with rfl | hz'
      · exact Or.inl h
      · exact hy z hz'
    · simp only [insertDesc, if_neg h]
      refine List.pairwise_cons.mpr ⟨?_, hS⟩
      intro z hz
      rcases List.mem_cons.mp hz with rfl | hz'
      · rcases Nat.lt_or_ge (score z) (score x) with hlt | hge
        · exact Or.inl hlt
        · exact Or.inr ⟨by omega, hR z (List.mem_cons_self _ _)⟩
      · have hzy : score z ≤ score y := descTieRel_le score R (hy z hz')
        rcases Nat.lt_or_ge (score z) (score x) with hlt | hge
        · exact Or.inl hlt
        · exact Or.inr ⟨by omega, hR z (List.mem_cons_of_mem y hz')⟩

theorem sortDesc_pairwise {α : Type} (score : α → Nat) (R : α → α → Prop)
    (l : List α) (hl : l.Pairwise R) :
    (sortDesc score l).Pairwise (descTieRel score R) := by
  induction l with
  | nil => simp [sortDesc, List.Pairwise.nil]
  | cons x xs ih =>
    rcases List.pairwise_cons.mp hl with ⟨hx, hxs⟩
    exact insertDesc_pairwise score R x (sortDesc score xs) (ih hxs)
      (fun y hy => hx y ((sortDesc_perm score xs).mem_iff.mp hy))

theorem pairwise_true {α : Type} (l : List α) : l.Pairwise (fun _ _ => True) := by
  induction l with
  | nil => exact List.Pairwise.nil
  | cons x xs ih => exact List.Pairwise.cons (fun _ _ => trivial) ih

theorem sortDesc_sorted {α : Type} (score : α → Nat) (l : List α) :
    (sortDesc score l).Pairwise (fun a b => score b ≤ score a) := by
  exact (sortDesc_pairwise score (fun _ _ => True) l (pairwise_true l)).imp
    (fun hab => descTieRel_le _ _ hab)

theorem insertDesc_filter_eq {α : Type} (score : α → Nat) (x : α) (l : List α)
    (s : Nat) (hx : score x = s) :
    (insertDesc score x l).filter (fun z => score z == s) =
      x :: l.filter (fun z => score z == s) := by
  induction l with
  | nil => simp [insertDesc, hx]
  | cons y ys ih =>
    by_cases h : score x < score y
    · have hy : (score y == s) = false := by
        simp only [beq_eq_false_iff_ne]
        omega
      simp only [insertDesc, if_pos h, List.filter_cons, hy, ih]
      simp
    · simp only [insertDesc, if_neg h]
      simp [List.filter_cons, hx]

theorem insertDesc_filter_ne {α : Type} (score : α → Nat) (x : α) (l : List α)
    (s : Nat) (hx : score x ≠ s) :
    (insertDesc score x l).filter (fun z => score z == s) =
      l.filter (fun z => score z == s) := by
  have hx' : (score x == s) = false := beq_eq_false_iff_ne.mpr hx
  induction l with
  | nil => simp [insertDesc, hx']
  | cons y ys ih =>
    by_cases h : score x < score y
    · simp only [insertDesc, if_pos h, List.filter_cons, ih]
    · simp [insertDesc, if_neg h, List.filter_cons, hx']

theorem sortDesc_filter {α : Type} (score : α → Nat) (l : List α) (s : Nat) :
    (sortDesc score l).filter (fun z => score z == s) =
      l.filter (fun z => score z == s) := by
  induction l with
  | nil => rfl
  | cons x xs ih =>
    by_cases hx : score x = s
    · rw [sortDesc, insertDesc_filter_eq score x _ s hx, ih, List.filter_cons]
      simp [hx]
    · rw [sortDesc, insertDesc_filter_ne score x _ s hx, ih, List.filter_cons]
      simp [hx]

/-- C1: for every batch, the highlight selector returns at most 5 highlights
(the images under `mkHighlight` of `topMessages`), ordered by non-increasing
score `msgScore m = length(m.body_text) + 10 * reaction_count(m)`; equal
scores keep the relative input order (for each score `s` the selected
messages of score `s` form a sublist of the input's messages of score `s`,
i.e. appear in the same relative order); and on the two-message batch with
body length 50 / 0 reactions (score 50) and body length 10 / 3 reactions
(score 40), the first message is ranked first. -/
theorem highlight_selector_spec (msgs : List Message) :
    (summarize_messages msgs).highlights = (topMessages msgs).map mkHighlight ∧
    (topMessages msgs).length ≤ 5 ∧
    (topMessages msgs).Pairwise (fun a b => msgScore b ≤ msgScore a) ∧
    (∀ s : Nat, List.Sublist ((topMessages msgs).filter (fun m => msgScore m == s))
      (msgs.filter (fun m => msgScore m == s))) ∧
    topMessages [⟨"u1", String.mk (List.replicate 50 'a'), 0, 0⟩,
        ⟨"u2", String.mk (List.replicate 10 'b'), 3, 1⟩] =
      [⟨"u1", String.mk (List.replicate 50 'a'), 0, 0⟩,
       ⟨"u2", String.mk (List.replicate 10 'b'), 3, 1⟩] := by
  refine ⟨?_, ?_, ?_, ?_, by decide⟩
  · by_cases h : msgs.isEmpty
    · have h' : msgs = [] := by
        cases msgs with
        | nil => rfl
        | cons a l => simp [List.isEmpty] at h
      subst h'
      simp [summarize_messages, topMessages, sortDesc]
    · simp [summarize_messages, h]
  · exact List.length_take_le 5 _
  · exact List.Pairwise.sublist (List.take_sublist 5 _) (sortDesc_sorted msgScore msgs)
  · intro s
    have h1 : List.Sublist ((topMessages msgs).filter (fun m => msgScore m == s))
        ((sortDesc msgScore msgs).filter (fun m => msgScore m == s)) :=
      (List.take_sublist 5 _).filter _
    rw [sortDesc_filter msgScore msgs s] at h1
    exact h1

/-- C5: a highlight's content is the message body when the body has at most
200 characters, and the first 200 characters followed by the marker `"..."`
when the body is longer; and every highlight produced by
`summarize_messages` carries `truncContent` of some input message's body. -/
theorem highlight_truncation_spec :
    (∀ s : String, (s.length ≤ 200 → truncContent s = s) ∧
      (200 < s.length → truncContent s = String.mk (s.data.take 200) ++ "...")) ∧
    (∀ (msgs : List Message) (h : Highlight),
      h ∈ (summarize_messages msgs).highlights →
      ∃ m, m ∈ msgs ∧ h.content = truncContent m.content) := by
  constructor
  · intro s
    constructor
    · intro hle
      rw [truncContent, if_neg (by omega)]
    · intro hgt
      rw [truncContent, if_pos hgt]
  · intro msgs h hmem
    by_cases he : msgs.isEmpty
    · simp [summarize_messages, he] at hmem
    · simp only [summarize_messages, he, Bool.false_eq_true, if_false] at hmem
      rcases List.mem_map.mp hmem with ⟨m, hm, rfl⟩
      exact ⟨m, (sortDesc_perm msgScore msgs).mem_iff.mp (List.take_subset 5 _ hm), rfl⟩

set_option maxRecDepth 8192 in
/-- Witness for C5: a short body is reproduced verbatim; a 201-character body
is truncated to 200 characters plus the marker; and the highlight produced
for a concrete one-message batch carries the truncated body. -/
theorem highlight_truncation_spec_witness :
    truncContent "hi" = "hi" ∧
    truncContent (String.mk (List.replicate 201 'a')) =
      String.mk (List.replicate 200 'a') ++ "..." ∧
    (∃ m, m ∈ [(⟨"u", "hi there friend", 2, 7⟩ : Message)] ∧
      (⟨"u", "hi there friend", 2, (7 : Int)⟩ : Highlight).content =
        truncContent m.content) :=
  ⟨(highlight_truncation_spec.1 "hi").1 (by decide),
   by
    have h := (highlight_truncation_spec.1 (String.mk (List.replicate 201 'a'))).2 (by decide)
    rw [h]
    decide,
   highlight_truncation_spec.2 [⟨"u", "hi there friend", 2, 7⟩]
     ⟨"u", "hi there friend", 2, 7⟩ (by decide)⟩

/-! Facts about the engine `get_guild_summary` and the watermark store. -/

/-- Closed form of the per-channel loop: the accumulated entries are the
contributing channels' entries in channel order, and the counters add the
contributing channels' message totals and their number. -/
theorem foldl_stepChannel (l : List Channel) (a : List ChannelEntry) (t c : Nat) :
    l.foldl stepChannel (a, t, c) =
      (a ++ (l.filter contributes).map mkChannelEntry,
       t + ((l.filter contributes).map
          (fun ch => (summarize_messages (chMessages ch)).total_messages)).sum,
       c + (l.filter contributes).length) := by
  induction l generalizing a t c with
  | nil => simp
  | cons ch chs ih =>
    cases hf : ch.fetch with
    | ok messages =>
      cases messages with
      | nil =>
        have hc : contributes ch = false := by simp [contributes, hf]
        simp [List.foldl_cons, stepChannel, hf, List.filter_cons, hc, ih]
      | cons m ms =>
        have hc : contributes ch = true := by simp [contributes, hf]
        have hstep : stepChannel (a, t, c) ch =
            (a ++ [mkChannelEntry ch],
             t + (summarize_messages (chMessages ch)).total_messages, c + 1) := by
          simp [stepChannel, hf, mkChannelEntry, chMessages]
        rw [List.foldl_cons, hstep, ih, List.filter_cons, if_pos hc]
        simp only [List.map_cons, List.sum_cons, List.length_cons, Prod.mk.injEq,
          List.append_assoc, List.singleton_append]
        refine ⟨trivial, by omega, by omega⟩
    | forbidden =>
      have hc : contributes ch = false := by simp [contributes, hf]
      simp [List.foldl_cons, stepChannel, hf, List.filter_cons, hc, ih]
    | fetchError e =>
      have hc : contributes ch = false := by simp [contributes, hf]
      simp [List.foldl_cons, stepChannel, hf, List.filter_cons, hc, ih]

/-- Characterization of a resolved run: the digest lists the contributing
channels in order, the counters are their number and total message count,
and `run_start` is committed through `update_last_summary_timestamp`. -/
theorem get_guild_summary_some (g : Guild) (store : Store) (readOk writeOk : Bool)
    (now0 run_start : Int) (guild_id : String) :
    get_guild_summary (some g) store readOk writeOk now0 run_start guild_id =
      ⟨.ok ⟨g.name, guild_id, get_last_summary_timestamp store readOk now0 guild_id,
            run_start,
            (g.channels.filter contributes).length,
            ((g.channels.filter contributes).map
              (fun ch => (summarize_messages (chMessages ch)).total_messages)).sum,
            (g.channels.filter contributes).map mkChannelEntry⟩,
       update_last_summary_timestamp store writeOk guild_id run_start,
       [(guild_id, run_start)]⟩ := by
  simp only [get_guild_summary, foldl_stepChannel, List.nil_append, Nat.zero_add]

/-- C7: when the community does not resolve (`bot.get_guild` returns `None`),
the engine returns the structured error result `{"error": "Guild not found"}`
— a value, not an exception — performs no watermark write, and leaves the
store exactly as it was. -/
theorem guild_not_found_spec (store : Store) (readOk writeOk : Bool)
    (now0 run_start : Int) (guild_id : String) :
    get_guild_summary none store readOk writeOk now0 run_start guild_id =
      ⟨.error "Guild not found", store, []⟩ := rfl

/-- C8: on a resolved community the digest lists exactly the contributing
channels (fetch succeeded with at least one qualifying message), in channel
order; a channel whose fetch yields zero qualifying messages satisfies
`contributes = false`, so it produces no `ChannelEntry` at all and is counted
neither in `total_channels_with_activity` nor in `total_messages`. -/
theorem empty_channel_omitted_spec (g : Guild) (store : Store)
    (readOk writeOk : Bool) (now0 run_start : Int) (guild_id : String) :
    ∃ d : GuildSummary,
      (get_guild_summary (some g) store readOk writeOk now0 run_start guild_id).result
        = .ok d ∧
      d.channel_summaries = (g.channels.filter contributes).map mkChannelEntry ∧
      d.total_channels_with_activity = (g.channels.filter contributes).length ∧
      d.total_messages = ((g.channels.filter contributes).map
        (fun ch => (summarize_messages (chMessages ch)).total_messages)).sum ∧
      ∀ ch : Channel, ch.fetch = .ok [] → contributes ch = false := by
  rw [get_guild_summary_some]
  exact ⟨_, rfl, rfl, rfl, rfl, fun ch hch => by simp [contributes, hch]⟩

/-- C9: a channel whose fetch fails — `discord.Forbidden` or any other fetch
error — is skipped and nothing else changes: the run's outcome equals the
outcome with that channel removed from the channel list, and the run still
completes with a digest (an `ok` result), never aborting. -/
theorem failed_channel_skipped_spec (nm : String) (l1 l2 : List Channel)
    (ch : Channel) (store : Store) (readOk writeOk : Bool)
    (now0 run_start : Int) (guild_id : String)
    (hch : ch.fetch = .forbidden ∨ ∃ e, ch.fetch = .fetchError e) :
    get_guild_summary (some ⟨nm, l1 ++ ch :: l2⟩) store readOk writeOk now0
        run_start guild_id =
      get_guild_summary (some ⟨nm, l1 ++ l2⟩) store readOk writeOk now0
        run_start guild_id ∧
    ∃ d, (get_guild_summary (some ⟨nm, l1 ++ ch :: l2⟩) store readOk writeOk now0
        run_start guild_id).result = .ok d := by
  have hc : contributes ch = false := by
    rcases hch with h | ⟨e, h⟩ <;> simp [contributes, h]
  constructor
  · rw [get_guild_summary_some, get_guild_summary_some]
    simp [List.filter_append, List.filter_cons, hc]
  · exact ⟨_, rfl⟩

/-- Witness for C9 at a concrete run: one forbidden channel, no others. -/
theorem failed_channel_skipped_spec_witness :
    (get_guild_summary (some ⟨"g", [] ++ (⟨"c", "1", .forbidden⟩ : Channel) :: []⟩)
        (fun _ => none) true true 0 100 "42" =
      get_guild_summary (some ⟨"g", [] ++ []⟩) (fun _ => none) true true 0 100 "42") ∧
    ∃ d, (get_guild_summary (some ⟨"g", [] ++ (⟨"c", "1", .forbidden⟩ : Channel) :: []⟩)
        (fun _ => none) true true 0 100 "42").result = .ok d :=
  failed_channel_skipped_spec "g" [] [] ⟨"c", "1", .forbidden⟩ (fun _ => none)
    true true 0 100 "42" (Or.inl rfl)

/-- C10: on every resolved community the engine performs the watermark write
exactly once — the write log is exactly `[(guild_id, run_start)]` whatever
the channel outcomes (all fetches failed, no qualifying messages, anything)
— and a successful write stores the run-start instant. -/
theorem watermark_write_unconditional_spec (g : Guild) (store : Store)
    (readOk writeOk : Bool) (now0 run_start : Int) (guild_id : String) :
    (get_guild_summary (some g) store readOk writeOk now0 run_start guild_id).writes
      = [(guild_id, run_start)] ∧
    (get_guild_summary (some g) store readOk true now0 run_start guild_id).store guild_id
      = some run_start := by
  constructor
  · rfl
  · simp [get_guild_summary, update_last_summary_timestamp]

/-- C3: a completed run commits `run_start` — the instant captured before the
channel fan-out, not a commit-time instant and not any message timestamp
(the committed value is `run_start` for every channel/message configuration
`g`) — and, provided any stored watermark was not later than `run_start` and
the pre-run default instant `now0` is not later than `run_start`, the value
`get` returns after the run is at least the value it returned before. -/
theorem watermark_commit_monotonic_spec (g : Guild) (store : Store)
    (readOk : Bool) (now0 now1 run_start : Int) (guild_id : String)
    (hstored : ∀ t, store guild_id = some t → t ≤ run_start)
    (hclock : now0 ≤ run_start) :
    ((get_guild_summary (some g) store readOk true now0 run_start guild_id).store guild_id
      = some run_start) ∧
    get_last_summary_timestamp store readOk now0 guild_id ≤
      get_last_summary_timestamp
        (get_guild_summary (some g) store readOk true now0 run_start guild_id).store
        true now1 guild_id := by
  have hw : (get_guild_summary (some g) store readOk true now0 run_start guild_id).store
      guild_id = some run_start := by
    simp [get_guild_summary, update_last_summary_timestamp]
  refine ⟨hw, ?_⟩
  have hrhs : get_last_summary_timestamp
      (get_guild_summary (some g) store readOk true now0 run_start guild_id).store
      true now1 guild_id = run_start := by
    simp [get_last_summary_timestamp, hw]
  rw [hrhs]
  cases readOk with
  | false =>
    simp only [get_last_summary_timestamp, Bool.false_eq_true, if_false]
    omega
  | true =>
    cases hs : store guild_id with
    | none =>
      simp only [get_last_summary_timestamp, if_pos, hs]
      omega
    | some t =>
      simp only [get_last_summary_timestamp, if_pos, hs]
      exact hstored t hs

/-- Witness for C3 at a concrete run: empty store, `now0 = 0`,
`run_start = 50`. -/
theorem watermark_commit_monotonic_spec_witness :
    ((get_guild_summary (some ⟨"g", []⟩) (fun _ => none) true true 0 50 "42").store "42"
      = some 50) ∧
    get_last_summary_timestamp (fun _ => none) true 0 "42" ≤
      get_last_summary_timestamp
        (get_guild_summary (some ⟨"g", []⟩) (fun _ => none) true true 0 50 "42").store
        true 7 "42" :=
  watermark_commit_monotonic_spec ⟨"g", []⟩ (fun _ => none) true 0 7 50 "42"
    (fun t ht => nomatch ht) (by omega)

/-- C6: `get_last_summary_timestamp` never fails its caller: it returns the
stored instant when one exists and the read succeeds, and returns the default
`now - 24h` both when no watermark document exists and when the storage read
raises (is not ok). -/
theorem watermark_get_spec (store : Store) (now : Int) (guild_id : String) :
    (∀ t, store guild_id = some t →
      get_last_summary_timestamp store true now guild_id = t) ∧
    (store guild_id = none →
      get_last_summary_timestamp store true now guild_id = now - 86400) ∧
    get_last_summary_timestamp store false now guild_id = now - 86400 := by
  refine ⟨?_, ?_, rfl⟩
  · intro t ht
    simp [get_last_summary_timestamp, ht]
  · intro hn
    simp [get_last_summary_timestamp, hn]

/-- Witness for C6: a store holding instant 5 for community "42", and an
empty store falling back to the 24-hour default. -/
theorem watermark_get_spec_witness :
    (get_last_summary_timestamp (fun k => if k = "42" then some 5 else none) true 0 "42"
      = 5) ∧
    (get_last_summary_timestamp (fun _ => none) true 1000 "42" = 1000 - 86400) :=
  ⟨(watermark_get_spec (fun k => if k = "42" then some 5 else none) 0 "42").1 5 (by simp),
   (watermark_get_spec (fun _ => none) 1000 "42").2.1 rfl⟩

/-! Facts about the keyword extractor. -/

theorem toLower_isUpper_eq_false (c : Char) : (c.toLower).isUpper = false := by
  have e65 : (UInt32.toBitVec 65).toNat = 65 := rfl
  have e90 : (UInt32.toBitVec 90).toNat = 90 := rfl
  unfold Char.toLower
  by_cases h : c.toNat ≥ 65 ∧ c.toNat ≤ 90
  · rw [if_pos h]
    have hv : Nat.isValidChar (c.toNat + 32) := Or.inl (by omega)
    unfold Char.ofNat
    rw [dif_pos hv]
    unfold Char.ofNatAux Char.isUpper
    simp only [Bool.and_eq_false_iff, decide_eq_false_iff_not, not_le, ge_iff_le,
      UInt32.le_def, BitVec.le_def, BitVec.toNat_ofNatLt]
    omega
  · rw [if_neg h]
    unfold Char.isUpper
    rw [Bool.and_eq_false_iff]
    have h2 : c.toNat = c.val.toBitVec.toNat := rfl
    rcases Nat.lt_or_ge c.toNat 65 with h1 | h1
    · left
      simp only [decide_eq_false_iff_not, not_le, ge_iff_le, UInt32.le_def, BitVec.le_def]
      omega
    · right
      simp only [decide_eq_false_iff_not, not_le, UInt32.le_def, BitVec.le_def]
      have h3 : ¬ c.toNat ≤ 90 := fun hle => h ⟨h1, hle⟩
      omega

/-- Every character of every word `text.split()` produces comes from the
accumulator or from the input characters. -/
theorem splitWsAux_chars (cs : List Char) : ∀ (cur w : List Char),
    w ∈ splitWsAux cur cs → ∀ c ∈ w, c ∈ cur ∨ c ∈ cs := by
  induction cs with
  | nil =>
    intro cur w hw c hc
    simp only [splitWsAux] at hw
    by_cases hcur : cur.isEmpty
    · simp [hcur] at hw
    · simp only [hcur, Bool.false_eq_true, if_false, List.mem_singleton] at hw
      subst hw
      exact Or.inl (List.mem_reverse.mp hc)
  | cons d ds ih =>
    intro cur w hw c hc
    simp only [splitWsAux] at hw
    by_cases hsp : pyIsSpace d
    · rw [if_pos hsp] at hw
      by_cases hcur : cur.isEmpty
      · rw [if_pos hcur] at hw
        rcases ih [] w hw c hc with h | h
        · simp at h
        · exact Or.inr (List.mem_cons_of_mem d h)
      · rw [if_neg hcur] at hw
        rcases List.mem_cons.mp hw with rfl | hw'
        · exact Or.inl (List.mem_reverse.mp hc)
        · rcases ih [] w hw' c hc with h | h
          · simp at h
          · exact Or.inr (List.mem_cons_of_mem d h)
    · rw [if_neg hsp] at hw
      rcases ih (d :: cur) w hw c hc with h | h
      · rcases List.mem_cons.mp h with rfl | h'
        · exact Or.inr (List.mem_cons_self _ _)
        · exact Or.inl h'
      · exact Or.inr (List.mem_cons_of_mem d h)

theorem mem_dedupF {x : String} : ∀ {l : List String}, x ∈ dedupF l → x ∈ l := by
  intro l
  induction l with
  | nil => simp [dedupF]
  | cons w ws ih =>
    intro hx
    simp only [dedupF] at hx
    rcases List.mem_cons.mp hx with rfl | hx'
    · exact List.mem_cons_self _ _
    · exact List.mem_cons_of_mem _ (ih (List.mem_of_mem_filter hx'))

theorem dedupF_nodup (l : List String) : (dedupF l).Nodup := by
  induction l with
  | nil => simp [dedupF]
  | cons w ws ih =>
    simp only [dedupF]
    refine List.nodup_cons.mpr ⟨?_, ih.filter _⟩
    intro hmem
    have := List.of_mem_filter hmem
    simp at this

theorem dedupF_filter (q : String → Bool) (l : List String) :
    dedupF (l.filter q) = (dedupF l).filter q := by
  induction l with
  | nil => rfl
  | cons w ws ih =>
    by_cases hq : q w
    · rw [List.filter_cons, if_pos hq]
      simp only [dedupF]
      rw [ih, List.filter_cons, if_pos hq]
      rw [List.filter_filter, List.filter_filter]
      refine congrArg (List.cons w) (List.filter_congr ?_)
      intro a _
      rw [Bool.and_comm]
    · rw [List.filter_cons, if_neg hq]
      simp only [dedupF]
      rw [ih, List.filter_cons, if_neg hq, List.filter_filter]
      refine (List.filter_congr ?_).symm
      intro a _
      by_cases haw : a = w
      · subst haw
        simp [hq]
      · simp [haw]

theorem dedupF_pairwise_idxOf (l : List String) :
    (dedupF l).Pairwise (fun a b => l.indexOf a < l.indexOf b) := by
  induction l with
  | nil => simp [dedupF]
  | cons w ws ih =>
    simp only [dedupF]
    refine List.pairwise_cons.mpr ⟨?_, ?_⟩
    · intro b hb
      have hbw : b ≠ w := by simpa using List.of_mem_filter hb
      rw [List.indexOf_cons_self, List.indexOf_cons_ne _ hbw.symm]
      omega
    · refine (ih.filter _).imp_of_mem ?_
      intro a b ha hb hab
      have haw : a ≠ w := by simpa using List.of_mem_filter ha
      have hbw : b ≠ w := by simpa using List.of_mem_filter hb
      rw [List.indexOf_cons_ne _ haw.symm, List.indexOf_cons_ne _ hbw.symm]
      omega

theorem bump_absent (acc : List (String × Nat)) (w : String)
    (hw : ¬ w ∈ acc.map Prod.fst) : bump acc w = acc ++ [(w, 1)] := by
  induction acc with
  | nil => rfl
  | cons p rest ih =>
    obtain ⟨k, n⟩ := p
    have hk : ¬ k = w := fun he => hw (by simp [he])
    simp only [bump, if_neg hk, List.cons_append]
    rw [ih (fun hmem => hw (by simp [hmem]))]

theorem bump_present_keys (acc : List (String × Nat)) (w : String)
    (hw : w ∈ acc.map Prod.fst) :
    (bump acc w).map Prod.fst = acc.map Prod.fst := by
  induction acc with
  | nil => simp at hw
  | cons p rest ih =>
    obtain ⟨k, n⟩ := p
    by_cases hk : k = w
    · simp [bump, hk]
    · have hw0 : w ∈ k :: rest.map Prod.fst := by
        rw [List.map_cons] at hw
        exact hw
      have hw' : w ∈ rest.map Prod.fst := by
        rcases List.mem_cons.mp hw0 with he | hmem
        · exact absurd he.symm hk
        · exact hmem
      simp only [bump, if_neg hk, List.map_cons]
      rw [ih hw']

theorem bump_present_map (acc : List (String × Nat)) (w : String) (ws : List String)
    (hw : w ∈ acc.map Prod.fst) (hnd : (acc.map Prod.fst).Nodup) :
    (bump acc w).map (fun p => (p.1, p.2 + ws.count p.1)) =
      acc.map (fun p => (p.1, p.2 + (ws.count p.1 + if p.1 = w then 1 else 0))) := by
  induction acc with
  | nil => simp at hw
  | cons p rest ih =>
    obtain ⟨k, n⟩ := p
    have hnd0 : (k :: rest.map Prod.fst).Nodup := by
      rw [List.map_cons] at hnd
      exact hnd
    have hnd' := List.nodup_cons.mp hnd0
    by_cases hk : k = w
    · subst hk
      simp only [bump, if_pos rfl, List.map_cons]
      refine congrArg₂ List.cons ?_ ?_
      · simp only [Prod.mk.injEq, if_pos rfl, eq_self_iff_true, if_true, true_and]
        omega
      · refine List.map_congr_left ?_
        intro q hq
        have hqk : ¬ q.1 = k := fun he => hnd'.1 (he ▸ List.mem_map_of_mem Prod.fst hq)
        simp [hqk]
    · have hw0 : w ∈ k :: rest.map Prod.fst := by
        rw [List.map_cons] at hw
        exact hw
      have hw' : w ∈ rest.map Prod.fst := by
        rcases List.mem_cons.mp hw0 with he | hmem
        · exact absurd he.symm hk
        · exact hmem
      simp only [bump, if_neg hk, List.map_cons]
      rw [ih hw' hnd'.2]
      simp [hk]

theorem bump_keys_nodup (acc : List (String × Nat)) (w : String)
    (hnd : (acc.map Prod.fst).Nodup) : ((bump acc w).map Prod.fst).Nodup := by
  by_cases hw : w ∈ acc.map Prod.fst
  · rw [bump_present_keys acc w hw]
    exact hnd
  · rw [bump_absent acc w hw, List.map_append]
    simp only [List.map_cons, List.map_nil]
    rw [List.nodup_append]
    exact ⟨hnd, List.nodup_singleton w, by simpa [List.disjoint_singleton] using hw⟩

/-- Closed form of the frequency dict built by folding `bump` over a word
list `l` starting from `acc`: the old entries keep their order with counts
increased by the occurrences in `l`, and the words of `l` not yet present
are appended in first-occurrence order with their counts in `l`. -/
theorem foldl_bump_closed (l : List String) (acc : List (String × Nat))
    (hnd : (acc.map Prod.fst).Nodup) :
    l.foldl bump acc =
      acc.map (fun p => (p.1, p.2 + l.count p.1)) ++
      (dedupF (l.filter (fun v => decide (¬ v ∈ acc.map Prod.fst)))).map
        (fun v => (v, l.count v)) := by
  induction l generalizing acc with
  | nil =>
    simp [dedupF]
  | cons w ws ih =>
    rw [List.foldl_cons]
    by_cases hw : w ∈ acc.map Prod.fst
    · rw [ih (bump acc w) (bump_keys_nodup acc w hnd)]
      rw [bump_present_map acc w ws hw hnd, bump_present_keys acc w hw]
      refine congrArg₂ (· ++ ·) ?_ ?_
      · refine List.map_congr_left ?_
        intro p _
        have hcc : (w :: ws).count p.1 = ws.count p.1 + if p.1 = w then 1 else 0 := by
          rw [List.count_cons]
          by_cases he : p.1 = w
          · subst he
            simp
          · rw [if_neg (by simpa using (fun h => he h.symm)), if_neg he]
        rw [hcc]
      · have hfw : (fun v => decide (¬ v ∈ acc.map Prod.fst)) w = false := by
          simp [hw]
        rw [List.filter_cons, if_neg (by simp [hfw])]
        refine List.map_congr_left ?_
        intro v hv
        have hvp := List.of_mem_filter (mem_dedupF hv)
        have hvw : ¬ w = v := by
          intro he
          subst he
          simp [hw] at hvp
        rw [List.count_cons, if_neg (by simpa using hvw)]
        simp
    · rw [ih (bump acc w) (bump_keys_nodup acc w hnd)]
      rw [bump_absent acc w hw]
      have hkeys : ((acc ++ [(w, 1)]).map Prod.fst) = acc.map Prod.fst ++ [w] := by
        simp
      rw [List.map_append, hkeys]
      have hfilter : ws.filter (fun v => decide (¬ v ∈ acc.map Prod.fst ++ [w])) =
          (ws.filter (fun v => decide (¬ v ∈ acc.map Prod.fst))).filter
            (fun v => decide (v ≠ w)) := by
        rw [List.filter_filter]
        refine List.filter_congr ?_
        intro a _
        by_cases h1 : a = w
        · subst h1
          simp
        · by_cases h2 : a ∈ acc.map Prod.fst <;> simp [h1, h2]
      rw [hfilter, dedupF_filter]
      have hWcons : (w :: ws).filter (fun v => decide (¬ v ∈ acc.map Prod.fst)) =
          w :: ws.filter (fun v => decide (¬ v ∈ acc.map Prod.fst)) := by
        rw [List.filter_cons, if_pos (by simpa using hw)]
      rw [hWcons]
      simp only [dedupF, List.map_cons, List.map_append, List.map_nil]
      rw [List.append_assoc]
      refine congrArg₂ (· ++ ·) ?_ ?_
      · refine List.map_congr_left ?_
        intro p hp
        have hpw : ¬ p.1 = w := by
          intro he
          exact hw (he ▸ List.mem_map_of_mem Prod.fst hp)
        rw [List.count_cons, if_neg (by simpa using (fun he => hpw he.symm))]
        simp
      · simp only [List.singleton_append, List.cons.injEq, Prod.mk.injEq]
        refine ⟨⟨trivial, ?_⟩, ?_⟩
        · rw [List.count_cons, if_pos (by simp)]
          omega
        · refine List.map_congr_left ?_
          intro v hv
          have hvw : ¬ v = w := by simpa using List.of_mem_filter hv
          rw [List.count_cons, if_neg (by simpa using (fun he => hvw he.symm))]
          simp

/-- The conditional fold of `extract_keywords` equals folding `bump` over the
stripped words that pass the qualification test. -/
theorem foldl_addWord (l : List String) (acc : List (String × Nat)) :
    l.foldl (fun acc w => if isKeywordTok (stripWord w) then bump acc (stripWord w) else acc) acc
      = ((l.map stripWord).filter isKeywordTok).foldl bump acc := by
  induction l generalizing acc with
  | nil => rfl
  | cons w ws ih =>
    rw [List.foldl_cons, List.map_cons, List.filter_cons]
    by_cases h : isKeywordTok (stripWord w)
    · rw [if_pos h, if_pos h, List.foldl_cons, ih]
    · rw [if_neg h, if_neg h, ih]

/-- `extract_keywords` in closed form: stable-sort the first-occurrence-ordered
(token, frequency) pairs of the qualifying tokens descending by frequency,
take `max_keywords`, and project the tokens. -/
theorem extract_keywords_eq (text : String) (k : Nat) :
    extract_keywords text k =
      ((sortDesc (fun p => p.2)
        ((dedupF (qualTokens text)).map
          (fun w => (w, (qualTokens text).count w)))).take k).map
        (fun p => p.1) := by
  simp only [extract_keywords]
  rw [foldl_addWord]
  rw [show ((pySplit (pyLower text)).map stripWord).filter isKeywordTok
      = qualTokens text from rfl]
  rw [foldl_bump_closed (qualTokens text) [] (by simp)]
  simp

/-- C2: the keyword extractor returns tokens ranked by strictly descending
frequency in the qualifying-token sequence except that equal-frequency
tokens are ordered by the position of their first occurrence (`indexOf` in
`qualTokens`, whose order follows the input text); on
`"The quick brown fox. Fox is quick."` with `max_keywords = 2` the result is
exactly `["quick", "fox"]`. -/
theorem keyword_order_spec (text : String) (k : Nat) :
    (extract_keywords text k).Pairwise (fun a b =>
      (qualTokens text).count b < (qualTokens text).count a ∨
      ((qualTokens text).count a = (qualTokens text).count b ∧
        (qualTokens text).indexOf a < (qualTokens text).indexOf b)) ∧
    extract_keywords "The quick brown fox. Fox is quick." 2 = ["quick", "fox"] := by
  refine ⟨?_, by decide⟩
  rw [extract_keywords_eq, List.pairwise_map]
  have h0 : ((dedupF (qualTokens text)).map
      (fun w => (w, (qualTokens text).count w))).Pairwise
      (fun (p q : String × Nat) =>
        (qualTokens text).indexOf p.1 < (qualTokens text).indexOf q.1) := by
    rw [List.pairwise_map]
    exact dedupF_pairwise_idxOf (qualTokens text)
  have h1 := sortDesc_pairwise (fun p => p.2)
    (fun (p q : String × Nat) =>
      (qualTokens text).indexOf p.1 < (qualTokens text).indexOf q.1) _ h0
  have h2 := List.Pairwise.sublist (List.take_sublist k _) h1
  refine h2.imp_of_mem ?_
  intro a b ha hb hab
  have hma : a ∈ (dedupF (qualTokens text)).map
      (fun w => (w, (qualTokens text).count w)) :=
    (sortDesc_perm _ _).mem_iff.mp (List.take_subset k _ ha)
  have hmb : b ∈ (dedupF (qualTokens text)).map
      (fun w => (w, (qualTokens text).count w)) :=
    (sortDesc_perm _ _).mem_iff.mp (List.take_subset k _ hb)
  have ha2 : a.2 = (qualTokens text).count a.1 := by
    rcases List.mem_map.mp hma with ⟨w, _, rfl⟩
    rfl
  have hb2 : b.2 = (qualTokens text).count b.1 := by
    rcases List.mem_map.mp hmb with ⟨w, _, rfl⟩
    rfl
  have hab2 : b.2 < a.2 ∨ (a.2 = b.2 ∧
      (qualTokens text).indexOf a.1 < (qualTokens text).indexOf b.1) := hab
  rcases hab2 with h | ⟨he, hr⟩
  · left
    rw [← ha2, ← hb2]
    exact h
  · exact Or.inr ⟨by rw [← ha2, ← hb2]; exact he, hr⟩

/-- C4: for every input and every `max_keywords`, the keyword extractor's
output has at most `max_keywords` entries, they are pairwise distinct, none
is a stop word, none has length ≤ 2, and every character of every token is
alphanumeric and not an uppercase letter (the tokens are lowercase). -/
theorem keyword_filter_spec (text : String) (k : Nat) :
    (extract_keywords text k).length ≤ k ∧
    (extract_keywords text k).Nodup ∧
    ∀ w ∈ extract_keywords text k,
      stopWords.contains w = false ∧ 2 < w.length ∧
      ∀ c ∈ w.data, c.isAlphanum = true ∧ c.isUpper = false := by
  rw [extract_keywords_eq]
  refine ⟨?_, ?_, ?_⟩
  · rw [List.length_map]
    exact List.length_take_le k _
  · rw [List.map_take]
    have hperm := (sortDesc_perm (fun p : String × Nat => p.2)
      ((dedupF (qualTokens text)).map
        (fun w => (w, (qualTokens text).count w)))).map
      (fun p : String × Nat => p.1)
    have hnd : (((dedupF (qualTokens text)).map
        (fun w => (w, (qualTokens text).count w))).map
          (fun p : String × Nat => p.1)).Nodup := by
      rw [List.map_map]
      have hid : ((fun p : String × Nat => p.1) ∘
          fun w => (w, (qualTokens text).count w)) = id := rfl
      rw [hid, List.map_id]
      exact dedupF_nodup _
    exact (hperm.nodup_iff.mpr hnd).sublist (List.take_sublist k _)
  · intro w hw
    rcases List.mem_map.mp hw with ⟨p, hp, rfl⟩
    have hpa : p ∈ (dedupF (qualTokens text)).map
        (fun w => (w, (qualTokens text).count w)) :=
      (sortDesc_perm _ _).mem_iff.mp (List.take_subset k _ hp)
    rcases List.mem_map.mp hpa with ⟨v, hv, rfl⟩
    have hq : v ∈ qualTokens text := mem_dedupF hv
    have htok : isKeywordTok v = true := List.of_mem_filter hq
    simp only [isKeywordTok, Bool.and_eq_true] at htok
    have h1 : 2 < v.length := by simpa using htok.1
    have h2 : stopWords.contains v = false := by simpa using htok.2
    refine ⟨h2, h1, ?_⟩
    have hmem2 : v ∈ (pySplit (pyLower text)).map stripWord :=
      List.mem_of_mem_filter hq
    rcases List.mem_map.mp hmem2 with ⟨u, hu, rfl⟩
    intro c hc
    have hc' : c ∈ u.data.filter Char.isAlphanum := hc
    have halnum : Char.isAlphanum c = true := List.of_mem_filter hc'
    have hcu : c ∈ u.data := List.mem_of_mem_filter hc'
    rcases List.mem_map.mp hu with ⟨cs, hcs, rfl⟩
    have hcc : c ∈ cs := hcu
    have hchars : c ∈ (pyLower text).data := by
      rcases splitWsAux_chars ((pyLower text).data) [] cs hcs c hcc with h | h
      · simp at h
      · exact h
    have hlower : (pyLower text).data = text.data.map Char.toLower := rfl
    rw [hlower] at hchars
    rcases List.mem_map.mp hchars with ⟨c0, _, rfl⟩
    exact ⟨halnum, toLower_isUpper_eq_false c0⟩

/-- Witness for C4: the token "hello" extracted from a concrete text is not
a stop word, is longer than two characters, and is lowercase alphanumeric. -/
theorem keyword_filter_spec_witness :
    stopWords.contains "hello" = false ∧ 2 < "hello".length ∧
      ∀ c ∈ "hello".data, c.isAlphanum = true ∧ c.isUpper = false :=
  (keyword_filter_spec "Hello hello world" 5).2.2 "hello" (by decide)

/-- Witness for C8: instantiating the run characterization at a concrete
guild whose only channel yields zero qualifying messages shows that channel
contributes nothing. -/
theorem empty_channel_omitted_spec_witness :
    contributes ⟨"c", "1", FetchResult.ok []⟩ = false := by
  obtain ⟨d, -, -, -, -, h⟩ := empty_channel_omitted_spec
    ⟨"g", [⟨"c", "1", FetchResult.ok []⟩]⟩ (fun _ => none) true true 0 0 "42"
  exact h ⟨"c", "1", FetchResult.ok []⟩ rfl
